import Mathlib

/-!
Verification of the extraction/normalization core of `src/main.py`
(mihoyo-ics): post-content validation, time-window extraction, version
resolution and caching, event merging, and calendar-entry building.

Python strings are modelled as `List Char`; `datetime` values as records
of calendar fields with second precision (the code never produces
sub-second values).  Python exceptions that the source catches and turns
into `None` are modelled by `Option`.
-/

set_option maxHeartbeats 1000000

namespace MihoyoIcs

/-- Python `str`, modelled as a list of characters. -/
abbrev Str := List Char

/-- Python `datetime.datetime` restricted to whole seconds, which is all
the source ever constructs (`strptime` with a seconds-precision format,
`fromtimestamp` of integer forum timestamps). -/
structure DT where
  year : Nat
  month : Nat
  day : Nat
  hour : Nat
  minute : Nat
  second : Nat
deriving DecidableEq, Repr

/-- Leap-year test, as in Python's `datetime` module. -/
def isLeap (y : Nat) : Bool :=
  (y % 4 == 0 && y % 100 != 0) || y % 400 == 0

/-- Days in a month, as validated by the `datetime` constructor. -/
def daysInMonth (y m : Nat) : Nat :=
  if m = 2 then (if isLeap y then 29 else 28)
  else if m = 4 ∨ m = 6 ∨ m = 9 ∨ m = 11 then 30
  else 31

/-- Days in the year before month `m` (Python `_days_before_month`). -/
def daysBeforeMonth (y : Nat) : Nat → Nat
  | 0 => 0
  | 1 => 0
  | m + 2 => daysBeforeMonth y (m + 1) + daysInMonth y (m + 1)

/-- Days before January 1st of year `y` (Python `_days_before_year`). -/
def daysBeforeYear (y : Nat) : Nat :=
  365 * (y - 1) + (y - 1) / 4 - (y - 1) / 100 + (y - 1) / 400

/-- Proleptic Gregorian ordinal of the date (Python `date.toordinal`). -/
def toOrdinal (d : DT) : Nat :=
  daysBeforeYear d.year + daysBeforeMonth d.year d.month + d.day

/-- Second count on the proleptic Gregorian time line (natural-number
version). -/
def secOf (d : DT) : Nat :=
  toOrdinal d * 86400 + d.hour * 3600 + d.minute * 60 + d.second

/-- Seconds on the proleptic Gregorian time line; naive-datetime
subtraction (`timedelta.total_seconds`) is the difference of these. -/
def toSeconds (d : DT) : Int := (secOf d : Int)

/-- The range the `datetime` constructor accepts (restricted to whole
seconds). -/
def isValidDT (d : DT) : Prop :=
  1 ≤ d.year ∧ d.year ≤ 9999 ∧ 1 ≤ d.month ∧ d.month ≤ 12 ∧
    1 ≤ d.day ∧ d.day ≤ daysInMonth d.year d.month ∧
    d.hour ≤ 23 ∧ d.minute ≤ 59 ∧ d.second ≤ 59

instance (d : DT) : Decidable (isValidDT d) := by
  unfold isValidDT; infer_instance

/-- `start_time + timedelta(hours=1)` of the source's `add_event`,
written out as calendar arithmetic. -/
def addHour (d : DT) : DT :=
  if d.hour < 23 then { d with hour := d.hour + 1 }
  else if d.day < daysInMonth d.year d.month then
    { d with hour := 0, day := d.day + 1 }
  else if d.month < 12 then
    { d with hour := 0, day := 1, month := d.month + 1 }
  else
    { d with hour := 0, day := 1, month := 1, year := d.year + 1 }

/-- `end_time - timedelta(hours=1)` of the source's `add_event`. -/
def subHour (d : DT) : DT :=
  if 0 < d.hour then { d with hour := d.hour - 1 }
  else if 1 < d.day then { d with hour := 23, day := d.day - 1 }
  else if 1 < d.month then
    { d with hour := 23, day := daysInMonth d.year (d.month - 1), month := d.month - 1 }
  else
    { d with hour := 23, day := 31, month := 12, year := d.year - 1 }

theorem daysBeforeMonth_succ (y m : Nat) (h : 1 ≤ m) :
    daysBeforeMonth y (m + 1) = daysBeforeMonth y m + daysInMonth y m := by
  match m, h with
  | m + 1, _ => rfl

theorem isLeap_iff (y : Nat) :
    isLeap y = true ↔ ((y % 4 = 0 ∧ y % 100 ≠ 0) ∨ y % 400 = 0) := by
  unfold isLeap
  simp [Bool.or_eq_true, Bool.and_eq_true, beq_iff_eq, bne_iff_ne]

theorem daysBeforeYear_succ (y : Nat) (h : 1 ≤ y) :
    daysBeforeYear (y + 1) = daysBeforeYear y + (if isLeap y then 366 else 365) := by
  unfold daysBeforeYear
  by_cases hL : isLeap y
  · rw [if_pos hL]
    rw [isLeap_iff] at hL
    omega
  · rw [if_neg hL]
    rw [isLeap_iff] at hL
    push_neg at hL
    rcases Nat.eq_zero_or_pos (y % 4) with h4 | h4
    · have h100 := hL.1 h4
      have h400 := hL.2
      omega
    · omega

theorem daysBeforeMonth_year (y : Nat) :
    daysBeforeMonth y 12 + daysInMonth y 12 = if isLeap y then 366 else 365 := by
  by_cases h : isLeap y <;>
    simp [daysBeforeMonth, daysInMonth, h]

theorem toOrdinal_pos (d : DT) (h : isValidDT d) : 1 ≤ toOrdinal d := by
  obtain ⟨-, -, -, -, hd, -⟩ := h
  unfold toOrdinal
  omega

theorem secOf_addHour (d : DT) (h : isValidDT d) :
    secOf (addHour d) = secOf d + 3600 := by
  obtain ⟨hy1, hy2, hm1, hm2, hd1, hd2, hh, hmin, hsec⟩ := h
  unfold addHour
  by_cases h1 : d.hour < 23
  · rw [if_pos h1]
    unfold secOf toOrdinal
    simp only
    omega
  · rw [if_neg h1]
    have hh23 : d.hour = 23 := by omega
    by_cases h2 : d.day < daysInMonth d.year d.month
    · rw [if_pos h2]
      unfold secOf toOrdinal
      simp only
      omega
    · rw [if_neg h2]
      have hdm : d.day = daysInMonth d.year d.month := by omega
      by_cases h3 : d.month < 12
      · rw [if_pos h3]
        have hstep := daysBeforeMonth_succ d.year d.month hm1
        unfold secOf toOrdinal
        simp only
        omega
      · rw [if_neg h3]
        have hm12 : d.month = 12 := by omega
        have hyr := daysBeforeYear_succ d.year hy1
        have hmo := daysBeforeMonth_year d.year
        have hcomb : daysBeforeYear (d.year + 1) =
            daysBeforeYear d.year + (daysBeforeMonth d.year 12 + daysInMonth d.year 12) := by
          rw [hyr, hmo]
        unfold secOf toOrdinal
        simp only
        rw [hm12] at hdm ⊢
        have hone : daysBeforeMonth (d.year + 1) 1 = 0 := rfl
        rw [hone]
        omega

theorem toSeconds_addHour (d : DT) (h : isValidDT d) :
    toSeconds (addHour d) = toSeconds d + 3600 := by
  have := secOf_addHour d h
  unfold toSeconds
  omega

/-- The predecessor-hour lemma needs the datetime to not be within the
first hour of the calendar's first representable day. -/
def notFirstHour (d : DT) : Prop :=
  1 ≤ d.hour ∨ 2 ≤ d.day ∨ 2 ≤ d.month ∨ 2 ≤ d.year

instance (d : DT) : Decidable (notFirstHour d) := by
  unfold notFirstHour; infer_instance

theorem secOf_subHour (d : DT) (h : isValidDT d) (hnf : notFirstHour d) :
    secOf (subHour d) + 3600 = secOf d := by
  obtain ⟨hy1, hy2, hm1, hm2, hd1, hd2, hh, hmin, hsec⟩ := h
  unfold subHour
  by_cases h1 : 0 < d.hour
  · rw [if_pos h1]
    unfold secOf toOrdinal
    simp only
    omega
  · rw [if_neg h1]
    have hh0 : d.hour = 0 := by omega
    by_cases h2 : 1 < d.day
    · rw [if_pos h2]
      unfold secOf toOrdinal
      simp only
      omega
    · rw [if_neg h2]
      have hd1' : d.day = 1 := by omega
      by_cases h3 : 1 < d.month
      · rw [if_pos h3]
        have hstep := daysBeforeMonth_succ d.year (d.month - 1) (by omega)
        rw [show d.month - 1 + 1 = d.month by omega] at hstep
        unfold secOf toOrdinal
        simp only
        omega
      · rw [if_neg h3]
        have hm1' : d.month = 1 := by omega
        have hy2' : 2 ≤ d.year := by
          unfold notFirstHour at hnf
          rcases hnf with h | h | h | h <;> omega
        have hyr := daysBeforeYear_succ (d.year - 1) (by omega)
        rw [show d.year - 1 + 1 = d.year by omega] at hyr
        have hmo := daysBeforeMonth_year (d.year - 1)
        have hcomb : daysBeforeYear d.year =
            daysBeforeYear (d.year - 1) +
              (daysBeforeMonth (d.year - 1) 12 + daysInMonth (d.year - 1) 12) := by
          rw [hyr, hmo]
        have hd31 : daysInMonth (d.year - 1) 12 = 31 := rfl
        unfold secOf toOrdinal
        simp only
        rw [hm1', hd1', hh0]
        have hone : daysBeforeMonth d.year 1 = 0 := rfl
        rw [hone]
        omega

theorem toSeconds_subHour (d : DT) (h : isValidDT d) (hnf : notFirstHour d) :
    toSeconds (subHour d) = toSeconds d - 3600 := by
  have := secOf_subHour d h hnf
  unfold toSeconds
  omega

/-! ## String utilities: split / join / order-preserving dedup

`str.split(sep)` and `sep.join(parts)` for the single-character
separator `、` used by the source, and the first-occurrence-preserving
deduplication performed by `dict.fromkeys`. -/

/-- Python `str.split(sep)` for a one-character separator.
`"".split(sep) == ['']`, matching the `[[]]` base case. -/
def splitSep (sep : Char) : Str → List Str
  | [] => [[]]
  | c :: t =>
    if c = sep then [] :: splitSep sep t
    else
      match splitSep sep t with
      | h :: r => (c :: h) :: r
      | [] => [[c]]

/-- Python `sep.join(parts)` for a one-character separator. -/
def joinSep (sep : Char) : List Str → Str
  | [] => []
  | [p] => p
  | p :: q :: r => p ++ sep :: joinSep sep (q :: r)

/-- Worker for `dedupFirst`: drops elements already seen, keeping the
first occurrence of each, as `dict.fromkeys` does. -/
def dedupFirstGo {α : Type} [DecidableEq α] : List α → List α → List α
  | [], _ => []
  | a :: t, seen => if a ∈ seen then dedupFirstGo t seen else a :: dedupFirstGo t (a :: seen)

/-- `list(dict.fromkeys(l))`: deduplication preserving first-seen order. -/
def dedupFirst {α : Type} [DecidableEq α] (l : List α) : List α :=
  dedupFirstGo l []

/-! ## Digit and number helpers -/

/-- The `%d`-style digit character of a value `0 ≤ n ≤ 9`. -/
def digitChar : Nat → Char
  | 0 => '0' | 1 => '1' | 2 => '2' | 3 => '3' | 4 => '4'
  | 5 => '5' | 6 => '6' | 7 => '7' | 8 => '8' | _ => '9'

/-- Split off the maximal leading run of ASCII digits. -/
def takeDigits : Str → Str × Str
  | [] => ([], [])
  | c :: t =>
    if c.isDigit then
      let (d, r) := takeDigits t
      (c :: d, r)
    else ([], c :: t)

/-- Numeric value of a digit string. -/
def parseNat (d : Str) : Nat :=
  d.foldl (fun n c => 10 * n + (c.toNat - 48)) 0

/-- Two-digit zero-padded field of `datetime.isoformat`. -/
def pad2 (n : Nat) : Str := [digitChar (n / 10 % 10), digitChar (n % 10)]

/-- Four-digit zero-padded year field of `datetime.isoformat`. -/
def pad4 (n : Nat) : Str :=
  [digitChar (n / 1000 % 10), digitChar (n / 100 % 10), digitChar (n / 10 % 10), digitChar (n % 10)]

/-- `datetime.isoformat()` for a whole-second datetime:
`YYYY-MM-DDTHH:MM:SS` (microseconds are omitted when zero). -/
def isoformat (d : DT) : Str :=
  pad4 d.year ++ '-' :: pad2 d.month ++ '-' :: pad2 d.day ++
    'T' :: pad2 d.hour ++ ':' :: pad2 d.minute ++ ':' :: pad2 d.second

/-- Consume one expected character. -/
def mChar (c : Char) : Str → Option Str
  | d :: t => if d = c then some t else none
  | [] => none

/-- Read a run of exactly `k` digits as a number. -/
def numExact (k : Nat) (s : Str) : Option (Nat × Str) :=
  if (takeDigits s).1.length = k then
    some (parseNat (takeDigits s).1, (takeDigits s).2)
  else none

/-- Read a run of one or two digits as a number (the effect of the
`strptime` field patterns for `%m`/`%d`/`%H`/`%M`/`%S` on inputs where
the digit run is followed by a non-digit or the end of the string). -/
def num12 (s : Str) : Option (Nat × Str) :=
  if (takeDigits s).1.length = 1 ∨ (takeDigits s).1.length = 2 then
    some (parseNat (takeDigits s).1, (takeDigits s).2)
  else none

/-- Python's `\s` on the characters the source can meet (ASCII
whitespace). -/
def pyIsSpace (c : Char) : Bool :=
  c = ' ' || c = '\t' || c = '\n' || c = '\x0b' || c = '\x0c' || c = '\r'

/-- Drop a maximal run of whitespace (`\s*`). -/
def dropSpaces : Str → Str
  | [] => []
  | c :: t => if pyIsSpace c then dropSpaces t else c :: t

/-- Require at least one whitespace character, then drop the run
(`\s+`, which is also what a blank inside a `strptime` format compiles
to). -/
def mSpace1 : Str → Option Str
  | [] => none
  | c :: t => if pyIsSpace c then some (dropSpaces t) else none

/-- `datetime.strptime(s, '%Y/%m/%d %H:%M:%S')`: `none` models the
`ValueError` the source catches.  Field ranges (month 1–12, day bounded
by the month length, hour ≤ 23, minute/second ≤ 59, year ≥ 1) reproduce
the combined effect of the `strptime` field regexes and the `datetime`
constructor's validation. -/
def strptime (s : Str) : Option DT := do
  let (y, r1) ← numExact 4 s
  let r2 ← mChar '/' r1
  let (mo, r3) ← num12 r2
  let r4 ← mChar '/' r3
  let (d, r5) ← num12 r4
  let r6 ← mSpace1 r5
  let (h, r7) ← num12 r6
  let r8 ← mChar ':' r7
  let (mi, r9) ← num12 r8
  let r10 ← mChar ':' r9
  let (se, r11) ← num12 r10
  if r11 = [] ∧ 1 ≤ y ∧ 1 ≤ mo ∧ mo ≤ 12 ∧ 1 ≤ d ∧ d ≤ daysInMonth y mo ∧
      h ≤ 23 ∧ mi ≤ 59 ∧ se ≤ 59 then
    some ⟨y, mo, d, h, mi, se⟩
  else none

/-- `datetime.fromisoformat` on the strings this program writes into the
version cache (`isoformat()` output, second precision): `none` models
the `ValueError` on anything else.  The real function also accepts other
ISO-8601 shapes the program never writes; the claims only exercise the
written subset. -/
def fromisoformat (s : Str) : Option DT := do
  let (y, r1) ← numExact 4 s
  let r2 ← mChar '-' r1
  let (mo, r3) ← numExact 2 r2
  let r4 ← mChar '-' r3
  let (d, r5) ← numExact 2 r4
  let r6 ← mChar 'T' r5
  let (h, r7) ← numExact 2 r6
  let r8 ← mChar ':' r7
  let (mi, r9) ← numExact 2 r8
  let r10 ← mChar ':' r9
  let (se, r11) ← numExact 2 r10
  if r11 = [] ∧ 1 ≤ y ∧ 1 ≤ mo ∧ mo ≤ 12 ∧ 1 ≤ d ∧ d ≤ daysInMonth y mo ∧
      h ≤ 23 ∧ mi ≤ 59 ∧ se ≤ 59 then
    some ⟨y, mo, d, h, mi, se⟩
  else none

/-! ## Pattern matchers

Hand-compiled backtracking matchers for the three concrete regular
expressions of the source:

* `TIME_PATTERN    = (dt)\s*~\s*(dt)` with
  `dt = \d{4}/\d{1,2}/\d{1,2}\s+\d{1,2}:\d{2}:\d{2}`,
* `VERSION_PATTERN = (\d+\.\d+)版本更新后\s*~\s*(dt)`,
* `AGENTS_PATTERN  = \[(.*?)\((.*?)\)\]`.

Matchers consume a prefix and return the remaining suffix; greedy
`\d{1,2}` and the lazy `.*?` are written in continuation-passing style
so that backtracking follows the regex engine.  `re.search` tries each
start position from the left. -/

/-- Consume one ASCII digit. -/
def mDigit : Str → Option Str
  | d :: t => if d.isDigit then some t else none
  | [] => none

/-- Greedy `\d{1,2}` with backtracking into the continuation. -/
def mD12 {α : Type} (k : Str → Option α) : Str → Option α
  | [] => none
  | a :: t =>
    if a.isDigit then
      match t with
      | b :: t2 => if b.isDigit then (k t2).orElse (fun _ => k t) else k t
      | [] => k []
    else none

/-- Consume a literal string. -/
def mStr (pat : Str) (s : Str) : Option Str :=
  match pat, s with
  | [], s => some s
  | c :: p, s => (mChar c s).bind (mStr p)

/-- The `\d{4}/\d{1,2}/\d{1,2}\s+\d{1,2}:\d{2}:\d{2}` sub-pattern in
continuation-passing style. -/
def mDT {α : Type} (k : Str → Option α) (s : Str) : Option α :=
  (mDigit s).bind fun sa =>
  (mDigit sa).bind fun sb =>
  (mDigit sb).bind fun sc =>
  (mDigit sc).bind fun s0 =>
  (mChar '/' s0).bind fun s1 =>
  mD12 (fun s2 =>
    (mChar '/' s2).bind fun s3 =>
    mD12 (fun s4 =>
      (mSpace1 s4).bind fun s5 =>
      mD12 (fun s6 =>
        (mChar ':' s6).bind fun s7 =>
        (mDigit s7).bind fun s8 =>
        (mDigit s8).bind fun s9 =>
        (mChar ':' s9).bind fun s10 =>
        (mDigit s10).bind fun s11 =>
        (mDigit s11).bind k) s5) s3) s1

/-- Match `TIME_PATTERN` anchored at the start of `s`; returns the two
captured datetime strings. -/
def timeAt (s : Str) : Option (Str × Str) :=
  mDT (fun r1 =>
    let g1 := s.take (s.length - r1.length)
    (mChar '~' (dropSpaces r1)).bind fun r2 =>
    let r2' := dropSpaces r2
    mDT (fun r3 => some (g1, r2'.take (r2'.length - r3.length))) r2') s

/-- `re.search(TIME_PATTERN, s)`: leftmost match. -/
def searchTime : Str → Option (Str × Str)
  | [] => none
  | c :: t =>
    match timeAt (c :: t) with
    | some g => some g
    | none => searchTime t

/-- Maximal leading digit run, requiring at least one digit (`\d+`
followed by a non-digit is maximal-munch). -/
def mDigits1 (s : Str) : Option (Str × Str) :=
  let (d, r) := takeDigits s
  if d = [] then none else some (d, r)

/-- Match `VERSION_PATTERN` anchored at the start of `s`; returns the
captured version label and end-datetime string. -/
def versionAt (s : Str) : Option (Str × Str) :=
  (mDigits1 s).bind fun (d1, r1) =>
  (mChar '.' r1).bind fun r2 =>
  (mDigits1 r2).bind fun (d2, r3) =>
  (mStr "版本更新后".toList r3).bind fun r4 =>
  (mChar '~' (dropSpaces r4)).bind fun r5 =>
  let r5' := dropSpaces r5
  mDT (fun r6 => some (d1 ++ '.' :: d2, r5'.take (r5'.length - r6.length))) r5'

/-- `re.search(VERSION_PATTERN, s)`: leftmost match. -/
def searchVersion : Str → Option (Str × Str)
  | [] => none
  | c :: t =>
    match versionAt (c :: t) with
    | some g => some g
    | none => searchVersion t

/-- Lazy `(.*?)` (any character but a newline), trying the continuation
first and extending the capture on failure. -/
def lazyStar {α : Type} (k : Str → Option α) : Str → Option (Str × α)
  | [] => (k []).map (fun a => ([], a))
  | c :: t =>
    match k (c :: t) with
    | some a => some ([], a)
    | none =>
      if c = '\n' then none
      else (lazyStar k t).map (fun p => (c :: p.1, p.2))

/-- Match `AGENTS_PATTERN` anchored at the start of `s`; returns the two
captures and the rest of the string after the match. -/
def agentAt (s : Str) : Option (Str × Str × Str) :=
  (mChar '[' s).bind fun s1 =>
  (lazyStar (fun t =>
    (mChar '(' t).bind fun t1 =>
    lazyStar (fun u => (mChar ')' u).bind (mChar ']')) t1) s1).map
    fun p => (p.1, p.2.1, p.2.2)

/-- Worker for `findAgents`; the fuel starts at the string length, which
the scan cannot exhaust since every step consumes at least one
character. -/
def findAgentsAux : Nat → Str → List (Str × Str)
  | 0, _ => []
  | _ + 1, [] => []
  | n + 1, c :: t =>
    match agentAt (c :: t) with
    | some (g1, g2, rest) => (g1, g2) :: findAgentsAux n rest
    | none => findAgentsAux n t

/-- `re.findall(AGENTS_PATTERN, s)`: all non-overlapping matches from
the left, each as a tuple of the two captures. -/
def findAgents (s : Str) : List (Str × Str) :=
  findAgentsAux s.length s

/-! ## Post-content pipeline (`PostCrawler`)

`parse_post_content` after the page has been fetched: it receives the
rendered title and body text.  The dependency of `_parse_version_time`
on `self._get_version_start_time` is passed as the `resolve` parameter;
`resolve _ = none` covers both a `None` result and a raised exception,
which `_parse_version_time` catches and turns into `None`. -/

/-- The equipment keyword `音擎`. -/
def engineKw : Str := "音擎".toList

/-- The agent keyword `代理人`. -/
def agentKw : Str := "代理人".toList

/-- `PostCrawler._is_valid_post_content` (the title argument is only
used for logging). -/
def isValidPostContent (description : Str) : Bool :=
  if engineKw <:+: description then false
  else if ¬ (agentKw <:+: description) then false
  else true

/-- `PostCrawler._extract_agents_title`: format each match pair as
`name(qualifier)`, deduplicate preserving first-seen order, join
with `、`. -/
def extractAgentsTitle (description : Str) : Option Str :=
  let ms := findAgents description
  if ms = [] then none
  else some (joinSep '、' (dedupFirst (ms.map fun m => m.1 ++ '(' :: m.2 ++ [')'])))

/-- `PostCrawler._parse_direct_time`: `strptime` both captured sides;
`none` models the propagated `ValueError`. -/
def parseDirectTime (g : Str × Str) : Option (DT × DT) := do
  let s ← strptime g.1
  let e ← strptime g.2
  pure (s, e)

/-- `PostCrawler._parse_version_time`: `strptime` the captured end,
resolve the version label to a start; any failure yields `none`. -/
def parseVersionTime (resolve : Str → Option DT) (g : Str × Str) : Option (DT × DT) := do
  let e ← strptime g.2
  let s ← resolve g.1
  pure (s, e)

/-- `PostCrawler._extract_event_time`: try the direct pattern first,
then the version pattern; a match commits to its parser (a parse
failure does not fall through to the next pattern). -/
def extractEventTime (resolve : Str → Option DT) (description : Str) : Option (DT × DT) :=
  match searchTime description with
  | some g => parseDirectTime g
  | none =>
    match searchVersion description with
    | some g => parseVersionTime resolve g
    | none => none

/-- The event dictionary built by `parse_post_content`. -/
structure CandidateEvent where
  title : Str
  startTime : DT
  endTime : DT
  description : Str
deriving DecidableEq, Repr

/-- `PostCrawler.parse_post_content` from the point where the rendered
title and body text are available: empty body check, validation gate,
agents-title override (`or` keeps the original title when extraction
yields `None`; a successful extraction is never the empty string), time
extraction, event construction with an empty description. -/
def parsePostContent (resolve : Str → Option DT) (title description : Str) :
    Option CandidateEvent :=
  if description = [] then none
  else if ¬ isValidPostContent description then none
  else
    let t := (extractAgentsTitle description).getD title
    match extractEventTime resolve description with
    | some (s, e) => some ⟨t, s, e, []⟩
    | none => none

/-! ## `merge_events` -/

/-- First-match lookup in an association list (Python `dict` access). -/
def lookupA {K V : Type} [DecidableEq K] : List (K × V) → K → Option V
  | [], _ => none
  | (k, v) :: t, q => if k = q then some v else lookupA t q

/-- The merge key `(start_time.isoformat(), end_time.isoformat())`. -/
def mkKey (e : CandidateEvent) : Str × Str :=
  (isoformat e.startTime, isoformat e.endTime)

/-- The title-combination step of `merge_events`: split both titles on
`、`, concatenate, deduplicate keeping first occurrences, rejoin. -/
def mergeTitles (a b : Str) : Str :=
  joinSep '、' (dedupFirst (splitSep '、' a ++ splitSep '、' b))

/-- The in-place title update `merge_events` performs on the existing
entry when a key collides. -/
def mergeUpd (e v : CandidateEvent) : CandidateEvent :=
  { v with title := mergeTitles v.title e.title }

/-- One iteration of the `merge_events` loop: insert under a fresh key,
or update only the title of the existing entry. -/
def mergeStep (acc : List ((Str × Str) × CandidateEvent)) (e : CandidateEvent) :
    List ((Str × Str) × CandidateEvent) :=
  match lookupA acc (mkKey e) with
  | none => acc ++ [(mkKey e, e)]
  | some _ =>
    acc.map fun p =>
      if p.1 = mkKey e then (p.1, mergeUpd e p.2)
      else p

/-- `merge_events`: fold the input in order into an insertion-ordered
dictionary keyed by the isoformat pair. -/
def mergeEvents (events : List CandidateEvent) : List ((Str × Str) × CandidateEvent) :=
  events.foldl mergeStep []

/-! ## `ICSGenerator.add_event` -/

/-- One `VEVENT` produced by `ICSGenerator.add_event` (the fixed
`tzid` label is attached to every entry alike and carries no data). -/
structure CalendarEntry where
  summary : Str
  dtstart : DT
  dtend : DT
  description : Str
deriving DecidableEq, Repr

/-- `ICSGenerator.add_event`: events longer than 24 hours are split
into a 1-hour start marker and a 1-hour end marker; others are emitted
unchanged. -/
def addEvent (e : CandidateEvent) : List CalendarEntry :=
  if 24 * 3600 < toSeconds e.endTime - toSeconds e.startTime then
    [ ⟨e.title ++ ' ' :: "开始".toList, e.startTime, addHour e.startTime, e.description⟩,
      ⟨e.title ++ ' ' :: "结束".toList, subHour e.endTime, e.endTime, e.description⟩ ]
  else
    [ ⟨e.title, e.startTime, e.endTime, e.description⟩ ]

/-! ## Version cache (`_get_version_start_time`)

The cache file is a JSON object, modelled as an insertion-ordered
association list of strings; `fetch` stands for
`_fetch_version_start_time` (the external search API).  The returned
`Bool` records whether `_save_version_data` was invoked. -/

/-- `version_data[version] = start_time.isoformat()` (dict assignment:
update in place when present, append otherwise). -/
def saveVersionData (version : Str) (t : DT) (cache : List (Str × Str)) :
    List (Str × Str) :=
  if (lookupA cache version).isSome then
    cache.map fun p => if p.1 = version then (p.1, isoformat t) else p
  else cache ++ [(version, isoformat t)]

/-- `PostCrawler._get_version_start_time`: on a cache hit return
`fromisoformat` of the stored string (a `ValueError` is caught by the
surrounding handler and becomes `None` — no fallback to the fetch); on
a miss, fetch, and persist on success. -/
def getVersionStartTime (fetch : Str → Option DT) (cache : List (Str × Str))
    (version : Str) : Option DT × List (Str × Str) × Bool :=
  match lookupA cache version with
  | some v => (fromisoformat v, cache, false)
  | none =>
    match fetch version with
    | some t => (some t, saveVersionData version t cache, true)
    | none => (none, cache, false)

/-! ## Lemmas about split / join / dedup -/

theorem splitSep_ne_nil (sep : Char) (t : Str) : splitSep sep t ≠ [] := by
  induction t with
  | nil => simp [splitSep]
  | cons c t ih =>
    unfold splitSep
    by_cases h : c = sep
    · simp [h]
    · rw [if_neg h]
      match hs : splitSep sep t with
      | [] => exact absurd hs ih
      | h1 :: r => simp

theorem joinSep_cons (sep : Char) (p : Str) (l : List Str) (h : l ≠ []) :
    joinSep sep (p :: l) = p ++ sep :: joinSep sep l := by
  match l, h with
  | q :: r, _ => rfl

theorem splitSep_cons (sep c : Char) (t : Str) :
    splitSep sep (c :: t) =
      if c = sep then [] :: splitSep sep t
      else
        match splitSep sep t with
        | h :: r => (c :: h) :: r
        | [] => [[c]] := rfl

theorem joinSep_splitSep (sep : Char) (t : Str) :
    joinSep sep (splitSep sep t) = t := by
  induction t with
  | nil => rfl
  | cons c t ih =>
    rw [splitSep_cons]
    by_cases h : c = sep
    · rw [if_pos h, joinSep_cons sep [] _ (splitSep_ne_nil sep t), ih, h]
      rfl
    · rw [if_neg h]
      match hs : splitSep sep t with
      | [] => exact absurd hs (splitSep_ne_nil sep t)
      | [h1] =>
        rw [hs] at ih
        simp only [joinSep] at ih ⊢
        rw [ih]
      | h1 :: q :: r' =>
        rw [hs] at ih
        rw [joinSep_cons sep (c :: h1) _ (by simp)]
        rw [joinSep_cons sep h1 _ (by simp)] at ih
        simp only [List.cons_append, List.cons.injEq, true_and]
        exact ih

theorem sep_not_mem_splitSep (sep : Char) (t : Str) (p : Str)
    (hp : p ∈ splitSep sep t) : sep ∉ p := by
  induction t generalizing p with
  | nil =>
    simp [splitSep] at hp
    simp [hp]
  | cons c t ih =>
    rw [splitSep_cons] at hp
    by_cases h : c = sep
    · rw [if_pos h] at hp
      rcases List.mem_cons.mp hp with h1 | h1
      · simp [h1]
      · exact ih p h1
    · rw [if_neg h] at hp
      match hs : splitSep sep t with
      | [] => exact absurd hs (splitSep_ne_nil sep t)
      | h1 :: r =>
        rw [hs] at hp
        rcases List.mem_cons.mp hp with h2 | h2
        · subst h2
          intro hmem
          rcases List.mem_cons.mp hmem with h3 | h3
          · exact h h3.symm
          · exact ih h1 (hs ▸ List.mem_cons_self h1 r) h3
        · exact ih p (hs ▸ List.mem_cons_of_mem h1 h2)

theorem splitSep_no_sep (sep : Char) (p : Str) (h : sep ∉ p) :
    splitSep sep p = [p] := by
  induction p with
  | nil => rfl
  | cons c t ih =>
    unfold splitSep
    rw [if_neg (by intro hc; exact h (hc ▸ List.mem_cons_self c t))]
    rw [ih (fun hm => h (List.mem_cons_of_mem c hm))]

theorem splitSep_append_sep (sep : Char) (p t : Str) (h : sep ∉ p) :
    splitSep sep (p ++ sep :: t) = p :: splitSep sep t := by
  induction p with
  | nil => simp [splitSep]
  | cons c q ih =>
    have hc : c ≠ sep := fun hc => h (hc ▸ List.mem_cons_self c q)
    have hq : sep ∉ q := fun hm => h (List.mem_cons_of_mem c hm)
    simp only [List.cons_append]
    rw [splitSep_cons, if_neg hc, ih hq]

theorem splitSep_joinSep (sep : Char) (parts : List Str) (hne : parts ≠ [])
    (h : ∀ p ∈ parts, sep ∉ p) :
    splitSep sep (joinSep sep parts) = parts := by
  induction parts with
  | nil => exact absurd rfl hne
  | cons p l ih =>
    match l with
    | [] =>
      simp only [joinSep]
      exact splitSep_no_sep sep p (h p (List.mem_cons_self p []))
    | q :: r =>
      rw [joinSep_cons sep p _ (by simp),
        splitSep_append_sep sep p _ (h p (List.mem_cons_self p _)),
        ih (by simp) (fun x hx => h x (List.mem_cons_of_mem p hx))]

theorem mem_dedupFirstGo {α : Type} [DecidableEq α] (l seen : List α) (x : α) :
    x ∈ dedupFirstGo l seen ↔ x ∈ l ∧ x ∉ seen := by
  induction l generalizing seen with
  | nil => simp [dedupFirstGo]
  | cons a t ih =>
    unfold dedupFirstGo
    by_cases h : a ∈ seen
    · rw [if_pos h, ih]
      constructor
      · rintro ⟨hx, hs⟩
        exact ⟨List.mem_cons_of_mem a hx, hs⟩
      · rintro ⟨hx, hs⟩
        rcases List.mem_cons.mp hx with rfl | hx
        · exact absurd h hs
        · exact ⟨hx, hs⟩
    · rw [if_neg h]
      simp only [List.mem_cons, ih, List.mem_cons, not_or]
      constructor
      · rintro (rfl | ⟨hx, hna, hns⟩)
        · exact ⟨Or.inl rfl, h⟩
        · exact ⟨Or.inr hx, hns⟩
      · rintro ⟨rfl | hx, hns⟩
        · exact Or.inl rfl
        · by_cases hxa : x = a
          · exact Or.inl hxa
          · exact Or.inr ⟨hx, hxa, hns⟩

theorem mem_dedupFirst {α : Type} [DecidableEq α] (l : List α) (x : α) :
    x ∈ dedupFirst l ↔ x ∈ l := by
  unfold dedupFirst
  rw [mem_dedupFirstGo]
  simp

theorem dedupFirst_ne_nil {α : Type} [DecidableEq α] (l : List α) (h : l ≠ []) :
    dedupFirst l ≠ [] := by
  match l, h with
  | a :: t, _ =>
    intro hc
    have := (mem_dedupFirst (a :: t) a).mpr (List.mem_cons_self a t)
    rw [hc] at this
    exact absurd this (List.not_mem_nil a)

theorem dedupFirstGo_cons {α : Type} [DecidableEq α] (a : α) (t seen : List α) :
    dedupFirstGo (a :: t) seen =
      if a ∈ seen then dedupFirstGo t seen else a :: dedupFirstGo t (a :: seen) := rfl

theorem dedupFirstGo_append {α : Type} [DecidableEq α] (xs ys seen : List α) :
    ∃ seen', dedupFirstGo (xs ++ ys) seen = dedupFirstGo xs seen ++ dedupFirstGo ys seen' ∧
      ∀ x, x ∈ seen' ↔ x ∈ xs ∨ x ∈ seen := by
  induction xs generalizing seen with
  | nil =>
    exact ⟨seen, by simp [dedupFirstGo], fun x => by simp⟩
  | cons a t ih =>
    simp only [List.cons_append]
    rw [dedupFirstGo_cons, dedupFirstGo_cons]
    by_cases h : a ∈ seen
    · rw [if_pos h, if_pos h]
      obtain ⟨seen', heq, hmem⟩ := ih seen
      refine ⟨seen', heq, fun x => ?_⟩
      rw [hmem]
      simp only [List.mem_cons]
      constructor
      · rintro (hx | hx)
        · exact Or.inl (Or.inr hx)
        · exact Or.inr hx
      · rintro ((rfl | hx) | hx)
        · exact Or.inr h
        · exact Or.inl hx
        · exact Or.inr hx
    · rw [if_neg h, if_neg h]
      obtain ⟨seen', heq, hmem⟩ := ih (a :: seen)
      refine ⟨seen', by rw [heq]; simp, fun x => ?_⟩
      rw [hmem]
      simp only [List.mem_cons]
      tauto

theorem dedupFirstGo_nil_of_sub {α : Type} [DecidableEq α] (l seen : List α)
    (h : ∀ x ∈ l, x ∈ seen) : dedupFirstGo l seen = [] := by
  induction l with
  | nil => rfl
  | cons a t ih =>
    unfold dedupFirstGo
    rw [if_pos (h a (List.mem_cons_self a t))]
    exact ih (fun x hx => h x (List.mem_cons_of_mem a hx))

theorem dedupFirst_append_self {α : Type} [DecidableEq α] (xs : List α) :
    dedupFirst (xs ++ xs) = dedupFirst xs := by
  unfold dedupFirst
  obtain ⟨seen', heq, hmem⟩ := dedupFirstGo_append xs xs []
  rw [heq, dedupFirstGo_nil_of_sub xs seen'
    (fun x hx => (hmem x).mpr (Or.inl hx)), List.append_nil]

theorem dedupFirstGo_of_nodup {α : Type} [DecidableEq α] (l seen : List α)
    (hn : l.Nodup) (h : ∀ x ∈ l, x ∉ seen) : dedupFirstGo l seen = l := by
  induction l generalizing seen with
  | nil => rfl
  | cons a t ih =>
    unfold dedupFirstGo
    rw [if_neg (h a (List.mem_cons_self a t))]
    rw [ih (a :: seen) (List.Nodup.of_cons hn)]
    intro x hx
    intro hmem
    rcases List.mem_cons.mp hmem with rfl | hmem
    · exact (List.nodup_cons.mp hn).1 hx
    · exact h x (List.mem_cons_of_mem a hx) hmem

theorem dedupFirst_of_nodup {α : Type} [DecidableEq α] (l : List α) (hn : l.Nodup) :
    dedupFirst l = l :=
  dedupFirstGo_of_nodup l [] hn (by simp)

/-- Segments of a merged title are exactly the union of the two sides'
segments. -/
theorem splitSep_mergeTitles (a b : Str) :
    splitSep '、' (mergeTitles a b) = dedupFirst (splitSep '、' a ++ splitSep '、' b) := by
  unfold mergeTitles
  apply splitSep_joinSep
  · exact dedupFirst_ne_nil _ (by
      intro hc
      exact splitSep_ne_nil '、' a (List.append_eq_nil.mp hc).1)
  · intro p hp
    rcases List.mem_append.mp ((mem_dedupFirst _ p).mp hp) with h | h
    · exact sep_not_mem_splitSep '、' a p h
    · exact sep_not_mem_splitSep '、' b p h

theorem mem_splitSep_mergeTitles (a b s : Str) :
    s ∈ splitSep '、' (mergeTitles a b) ↔
      s ∈ splitSep '、' a ∨ s ∈ splitSep '、' b := by
  rw [splitSep_mergeTitles, mem_dedupFirst, List.mem_append]

/-! ## Lemmas about `merge_events` -/

theorem lookupA_append_single {K V : Type} [DecidableEq K] (l : List (K × V))
    (k q : K) (v : V) :
    lookupA (l ++ [(k, v)]) q =
      match lookupA l q with
      | some w => some w
      | none => if k = q then some v else none := by
  induction l with
  | nil => simp [lookupA]
  | cons p t ih =>
    rw [List.cons_append]
    show (if p.1 = q then some p.2 else lookupA (t ++ [(k, v)]) q) = _
    by_cases h : p.1 = q
    · rw [if_pos h]
      show _ = (match (if p.1 = q then some p.2 else lookupA t q) with
        | some w => some w | none => if k = q then some v else none)
      rw [if_pos h]
    · rw [if_neg h, ih]
      show _ = (match (if p.1 = q then some p.2 else lookupA t q) with
        | some w => some w | none => if k = q then some v else none)
      rw [if_neg h]

theorem lookupA_mapTitle {K : Type} [DecidableEq K]
    (l : List (K × CandidateEvent)) (key q : K) (g : CandidateEvent → CandidateEvent) :
    lookupA (l.map fun p => if p.1 = key then (p.1, g p.2) else p) q =
      if q = key then (lookupA l q).map g else lookupA l q := by
  induction l with
  | nil => simp [lookupA]
  | cons p t ih =>
    rw [List.map_cons]
    by_cases hk : p.1 = key
    · rw [if_pos hk]
      show (if p.1 = q then some (g p.2) else _) = _
      by_cases hq : p.1 = q
      · rw [if_pos hq]
        have : q = key := hq ▸ hk
        rw [if_pos this]
        show _ = (if p.1 = q then some p.2 else lookupA t q).map g
        rw [if_pos hq]
        rfl
      · rw [if_neg hq, ih]
        by_cases h2 : q = key
        · rw [if_pos h2, if_pos h2]
          show _ = (if p.1 = q then some p.2 else lookupA t q).map g
          rw [if_neg hq]
        · rw [if_neg h2, if_neg h2]
          show _ = (if p.1 = q then some p.2 else lookupA t q)
          rw [if_neg hq]
    · rw [if_neg hk]
      show (if p.1 = q then some p.2 else _) = _
      by_cases hq : p.1 = q
      · rw [if_pos hq]
        have h2 : ¬ q = key := fun hc => hk (hq.symm ▸ hc)
        rw [if_neg h2]
        show _ = (if p.1 = q then some p.2 else lookupA t q)
        rw [if_pos hq]
      · rw [if_neg hq, ih]
        by_cases h2 : q = key
        · rw [if_pos h2, if_pos h2]
          show _ = (if p.1 = q then some p.2 else lookupA t q).map g
          rw [if_neg hq]
        · rw [if_neg h2, if_neg h2]
          show _ = (if p.1 = q then some p.2 else lookupA t q)
          rw [if_neg hq]

/-- Effect of one `merge_events` iteration on a lookup. -/
theorem lookupA_mergeStep (acc : List ((Str × Str) × CandidateEvent))
    (e : CandidateEvent) (q : Str × Str) :
    lookupA (mergeStep acc e) q =
      if q = mkKey e then
        match lookupA acc q with
        | none => some e
        | some old => some (mergeUpd e old)
      else lookupA acc q := by
  unfold mergeStep
  cases h : lookupA acc (mkKey e) with
  | none =>
    rw [lookupA_append_single]
    by_cases hq : q = mkKey e
    · rw [if_pos hq, hq, h, if_pos rfl]
    · rw [if_neg hq]
      have hk : ¬ mkKey e = q := fun hc => hq hc.symm
      cases h2 : lookupA acc q with
      | none => rw [if_neg hk]
      | some w => rfl
  | some old =>
    show lookupA (acc.map fun p =>
      if p.1 = mkKey e then (p.1, mergeUpd e p.2) else p) q = _
    rw [lookupA_mapTitle]
    by_cases hq : q = mkKey e
    · rw [if_pos hq, if_pos hq, hq, h]
      rfl
    · rw [if_neg hq, if_neg hq]

/-- `s` occurs among the `、`-separated title segments stored under key
`q` in a merged mapping. -/
def segMem (m : List ((Str × Str) × CandidateEvent)) (q : Str × Str) (s : Str) : Prop :=
  ∃ ev, lookupA m q = some ev ∧ s ∈ splitSep '、' ev.title

theorem lookupA_foldl_ne_none (l : List CandidateEvent) :
    ∀ (acc : List ((Str × Str) × CandidateEvent)) (q : Str × Str),
    lookupA (List.foldl mergeStep acc l) q ≠ none ↔
      lookupA acc q ≠ none ∨ ∃ e ∈ l, mkKey e = q := by
  induction l with
  | nil => simp
  | cons e l ih =>
    intro acc q
    rw [List.foldl_cons, ih]
    by_cases hq : q = mkKey e
    · constructor
      · intro _
        exact Or.inr ⟨e, List.mem_cons_self e l, hq.symm⟩
      · intro _
        left
        rw [lookupA_mergeStep, if_pos hq]
        cases lookupA acc q <;> simp
    · rw [lookupA_mergeStep, if_neg hq]
      constructor
      · rintro (h | ⟨e', he', hk⟩)
        · exact Or.inl h
        · exact Or.inr ⟨e', List.mem_cons_of_mem e he', hk⟩
      · rintro (h | ⟨e', he', hk⟩)
        · exact Or.inl h
        · rcases List.mem_cons.mp he' with rfl | he''
          · exact absurd hk.symm hq
          · exact Or.inr ⟨e', he'', hk⟩

theorem segMem_foldl (l : List CandidateEvent) :
    ∀ (acc : List ((Str × Str) × CandidateEvent)) (q : Str × Str) (s : Str),
    segMem (List.foldl mergeStep acc l) q s ↔
      segMem acc q s ∨ ∃ e ∈ l, mkKey e = q ∧ s ∈ splitSep '、' e.title := by
  induction l with
  | nil => simp [segMem]
  | cons e l ih =>
    intro acc q s
    rw [List.foldl_cons, ih]
    unfold segMem
    by_cases hq : q = mkKey e
    · rw [lookupA_mergeStep, if_pos hq]
      cases h : lookupA acc q with
      | none =>
        constructor
        · rintro (⟨ev, hev, hs⟩ | ⟨e', he', hk, hs⟩)
          · cases hev
            exact Or.inr ⟨e, List.mem_cons_self e l, hq.symm, hs⟩
          · exact Or.inr ⟨e', List.mem_cons_of_mem e he', hk, hs⟩
        · rintro (⟨ev, hev, hs⟩ | ⟨e', he', hk, hs⟩)
          · simp at hev
          · rcases List.mem_cons.mp he' with rfl | he''
            · exact Or.inl ⟨e', rfl, hs⟩
            · exact Or.inr ⟨e', he'', hk, hs⟩
      | some old =>
        constructor
        · rintro (⟨ev, hev, hs⟩ | ⟨e', he', hk, hs⟩)
          · cases hev
            rcases (mem_splitSep_mergeTitles old.title e.title s).mp hs with h1 | h1
            · exact Or.inl ⟨old, rfl, h1⟩
            · exact Or.inr ⟨e, List.mem_cons_self e l, hq.symm, h1⟩
          · exact Or.inr ⟨e', List.mem_cons_of_mem e he', hk, hs⟩
        · rintro (⟨ev, hev, hs⟩ | ⟨e', he', hk, hs⟩)
          · cases hev
            exact Or.inl ⟨_, rfl, (mem_splitSep_mergeTitles old.title e.title s).mpr (Or.inl hs)⟩
          · rcases List.mem_cons.mp he' with rfl | he''
            · exact Or.inl ⟨_, rfl,
                (mem_splitSep_mergeTitles old.title e'.title s).mpr (Or.inr hs)⟩
            · exact Or.inr ⟨e', he'', hk, hs⟩
    · rw [lookupA_mergeStep, if_neg hq]
      constructor
      · rintro (h | ⟨e', he', hk, hs⟩)
        · exact Or.inl h
        · exact Or.inr ⟨e', List.mem_cons_of_mem e he', hk, hs⟩
      · rintro (h | ⟨e', he', hk, hs⟩)
        · exact Or.inl h
        · rcases List.mem_cons.mp he' with rfl | he''
          · exact absurd hk.symm hq
          · exact Or.inr ⟨e', he'', hk, hs⟩

/-! ## Round trip: `fromisoformat` of `isoformat` -/

theorem isDigit_digitChar_mod (n : Nat) : (digitChar (n % 10)).isDigit = true := by
  have h : n % 10 < 10 := Nat.mod_lt _ (by norm_num)
  set k := n % 10 with hk
  interval_cases k <;> rfl

theorem toNat_digitChar_mod (n : Nat) : (digitChar (n % 10)).toNat - 48 = n % 10 := by
  have h : n % 10 < 10 := Nat.mod_lt _ (by norm_num)
  set k := n % 10 with hk
  interval_cases k <;> rfl

theorem takeDigits_append (p r : Str) (hp : ∀ c ∈ p, c.isDigit = true)
    (hr : match r with | [] => True | c :: _ => c.isDigit = false) :
    takeDigits (p ++ r) = (p, r) := by
  induction p with
  | nil =>
    match r, hr with
    | [], _ => rfl
    | c :: t, hr =>
      simp only [List.nil_append]
      unfold takeDigits
      rw [hr]
      simp
  | cons c q ih =>
    simp only [List.cons_append]
    unfold takeDigits
    rw [hp c (List.mem_cons_self c q),
      ih (fun x hx => hp x (List.mem_cons_of_mem c hx))]
    simp

theorem mem_pad2_isDigit (n : Nat) (c : Char) (h : c ∈ pad2 n) : c.isDigit = true := by
  unfold pad2 at h
  rcases List.mem_cons.mp h with rfl | h
  · exact isDigit_digitChar_mod (n / 10)
  · rcases List.mem_cons.mp h with rfl | h
    · exact isDigit_digitChar_mod n
    · exact absurd h (List.not_mem_nil c)

theorem mem_pad4_isDigit (n : Nat) (c : Char) (h : c ∈ pad4 n) : c.isDigit = true := by
  unfold pad4 at h
  rcases List.mem_cons.mp h with rfl | h
  · exact isDigit_digitChar_mod (n / 1000)
  · rcases List.mem_cons.mp h with rfl | h
    · exact isDigit_digitChar_mod (n / 100)
    · rcases List.mem_cons.mp h with rfl | h
      · exact isDigit_digitChar_mod (n / 10)
      · rcases List.mem_cons.mp h with rfl | h
        · exact isDigit_digitChar_mod n
        · exact absurd h (List.not_mem_nil c)

theorem parseNat_pad2 (n : Nat) (h : n ≤ 99) : parseNat (pad2 n) = n := by
  unfold parseNat pad2
  simp only [List.foldl_cons, List.foldl_nil]
  have h1 := toNat_digitChar_mod (n / 10)
  have h2 := toNat_digitChar_mod n
  omega

theorem parseNat_pad4 (n : Nat) (h : n ≤ 9999) : parseNat (pad4 n) = n := by
  unfold parseNat pad4
  simp only [List.foldl_cons, List.foldl_nil]
  have h1 := toNat_digitChar_mod (n / 1000)
  have h2 := toNat_digitChar_mod (n / 100)
  have h3 := toNat_digitChar_mod (n / 10)
  have h4 := toNat_digitChar_mod n
  omega

theorem numExact_pad2 (n : Nat) (h : n ≤ 99) (r : Str)
    (hr : match r with | [] => True | c :: _ => c.isDigit = false) :
    numExact 2 (pad2 n ++ r) = some (n, r) := by
  unfold numExact
  rw [takeDigits_append (pad2 n) r (mem_pad2_isDigit n) hr]
  rw [if_pos (by simp [pad2]), parseNat_pad2 n h]

theorem numExact_pad4 (n : Nat) (h : n ≤ 9999) (r : Str)
    (hr : match r with | [] => True | c :: _ => c.isDigit = false) :
    numExact 4 (pad4 n ++ r) = some (n, r) := by
  unfold numExact
  rw [takeDigits_append (pad4 n) r (mem_pad4_isDigit n) hr]
  rw [if_pos (by simp [pad4]), parseNat_pad4 n h]

theorem fromisoformat_isoformat (d : DT) (h : isValidDT d) :
    fromisoformat (isoformat d) = some d := by
  obtain ⟨y, mo, da, hh, mi, se⟩ := d
  obtain ⟨hy1, hy2, hm1, hm2, hd1, hd2, hhh, hmin, hsec⟩ := h
  simp only at hy1 hy2 hm1 hm2 hd1 hd2 hhh hmin hsec
  have hdm : daysInMonth y mo ≤ 31 := by
    unfold daysInMonth
    split
    · split <;> omega
    · split <;> omega
  unfold isoformat fromisoformat
  simp only [List.append_assoc, List.cons_append]
  rw [numExact_pad4 y (by omega) _ (by simp)]
  simp only [Option.bind_eq_bind, Option.some_bind]
  rw [show mChar '-' ('-' :: (pad2 mo ++ '-' :: (pad2 da ++ 'T' ::
    (pad2 hh ++ ':' :: (pad2 mi ++ ':' :: pad2 se))))) = some (pad2 mo ++ '-' ::
    (pad2 da ++ 'T' :: (pad2 hh ++ ':' :: (pad2 mi ++ ':' :: pad2 se)))) from rfl]
  simp only [Option.some_bind]
  rw [numExact_pad2 mo (by omega) _ (by simp)]
  simp only [Option.some_bind]
  rw [show mChar '-' ('-' :: (pad2 da ++ 'T' :: (pad2 hh ++ ':' ::
    (pad2 mi ++ ':' :: pad2 se)))) = some (pad2 da ++ 'T' :: (pad2 hh ++ ':' ::
    (pad2 mi ++ ':' :: pad2 se))) from rfl]
  simp only [Option.some_bind]
  rw [numExact_pad2 da (by omega) _ (by simp)]
  simp only [Option.some_bind]
  rw [show mChar 'T' ('T' :: (pad2 hh ++ ':' :: (pad2 mi ++ ':' :: pad2 se))) =
    some (pad2 hh ++ ':' :: (pad2 mi ++ ':' :: pad2 se)) from rfl]
  simp only [Option.some_bind]
  rw [numExact_pad2 hh (by omega) _ (by simp)]
  simp only [Option.some_bind]
  rw [show mChar ':' (':' :: (pad2 mi ++ ':' :: pad2 se)) =
    some (pad2 mi ++ ':' :: pad2 se) from rfl]
  simp only [Option.some_bind]
  rw [numExact_pad2 mi (by omega) _ (by simp)]
  simp only [Option.some_bind]
  rw [show mChar ':' (':' :: pad2 se) = some (pad2 se) from rfl]
  simp only [Option.some_bind]
  rw [show numExact 2 (pad2 se) = numExact 2 (pad2 se ++ []) by rw [List.append_nil],
    numExact_pad2 se (by omega) [] (by simp)]
  simp only [Option.some_bind]
  rw [if_pos]
  exact ⟨trivial, hy1, hm1, hm2, hd1, hd2, hhh, hmin, hsec⟩

/-! ## Pipeline helper lemmas -/

theorem isValidPostContent_of_engine (body : Str) (h : engineKw <:+: body) :
    isValidPostContent body = false := by
  unfold isValidPostContent
  rw [if_pos h]

theorem isValidPostContent_of_no_agent (body : Str) (h : ¬ agentKw <:+: body) :
    isValidPostContent body = false := by
  unfold isValidPostContent
  by_cases he : engineKw <:+: body
  · rw [if_pos he]
  · rw [if_neg he, if_pos h]

/-- When the gate passes and a time window is extracted,
`parse_post_content` emits the event with the (possibly overridden)
title, the extracted endpoints as-is, and an empty description. -/
theorem parsePostContent_some (resolve : Str → Option DT) (title body : Str) (s e : DT)
    (hv : isValidPostContent body = true)
    (hx : extractEventTime resolve body = some (s, e)) :
    parsePostContent resolve title body =
      some ⟨(extractAgentsTitle body).getD title, s, e, []⟩ := by
  have hb : body ≠ [] := by
    intro hc
    rw [hc] at hv
    exact absurd hv (by decide)
  unfold parsePostContent
  rw [if_neg hb, if_neg (by simp [hv]), hx]

/-! ## Claim theorems -/

/-- Body used for claims C1: a direct window whose left side is later
than its right side. -/
def c1Body : Str := "代理人 2024/3/2 10:00:00 ~ 2024/3/1 10:00:00".toList

/-- Claim C1, counterexample: the claim states that an extraction whose
matched time pattern yields `start ≥ end` is discarded (`none`), but for
this body the crawler returns the event with the reversed endpoints
(`start` strictly after `end`) instead of `none`. -/
theorem claimC1_counterexample :
    parsePostContent (fun _ => none) ['t'] c1Body =
      some ⟨['t'], ⟨2024, 3, 2, 10, 0, 0⟩, ⟨2024, 3, 1, 10, 0, 0⟩, []⟩ ∧
    toSeconds (⟨2024, 3, 1, 10, 0, 0⟩ : DT) < toSeconds (⟨2024, 3, 2, 10, 0, 0⟩ : DT) := by
  exact ⟨by rfl, by decide⟩

/-- Claim C1, amended: extraction performs no `start < end` validation;
whenever the gate passes and a time pattern resolves, the event is
emitted with the parsed endpoints exactly as extracted (even when
`start ≥ end`); only posts whose time extraction fails are discarded. -/
theorem claimC1_amended (resolve : Str → Option DT) (title body : Str) (s e : DT)
    (hv : isValidPostContent body = true)
    (hx : extractEventTime resolve body = some (s, e)) :
    parsePostContent resolve title body =
      some ⟨(extractAgentsTitle body).getD title, s, e, []⟩ :=
  parsePostContent_some resolve title body s e hv hx

/-- Witness for C1 (amended), at the reversed-window body: the gate
passes, extraction yields the reversed pair, and the event is emitted
with those endpoints. -/
theorem claimC1_witness :
    isValidPostContent c1Body = true ∧
    parsePostContent (fun _ => none) ['t'] c1Body =
      some ⟨(extractAgentsTitle c1Body).getD ['t'],
        ⟨2024, 3, 2, 10, 0, 0⟩, ⟨2024, 3, 1, 10, 0, 0⟩, []⟩ :=
  ⟨by decide,
   claimC1_amended (fun _ => none) ['t'] c1Body _ _ (by decide) (by rfl)⟩

/-- Body used for claim C2: the spec's direct-window example. -/
def c2Body : Str := "2024/3/1 10:00:00 ~ 2024/3/22 10:00:00".toList

/-- Claim C2: the direct-window encoding round-trips — for every body
whose `TIME_PATTERN` search succeeds and whose two captured sides
`strptime`-parse, extraction returns exactly the two parsed naive
timestamps as `(start, end)`; in particular the spec's example body
extracts to 2024-03-01T10:00:00 / 2024-03-22T10:00:00 (no timezone
shift is applied: the fields equal the digits of the text). -/
theorem claimC2 :
    (∀ (resolve : Str → Option DT) (body g1 g2 : Str) (s e : DT),
      searchTime body = some (g1, g2) → strptime g1 = some s → strptime g2 = some e →
      extractEventTime resolve body = some (s, e)) ∧
    (∀ resolve : Str → Option DT,
      extractEventTime resolve c2Body =
        some (⟨2024, 3, 1, 10, 0, 0⟩, ⟨2024, 3, 22, 10, 0, 0⟩)) := by
  constructor
  · intro resolve body g1 g2 s e hs h1 h2
    unfold extractEventTime
    rw [hs]
    unfold parseDirectTime
    simp [h1, h2]
  · intro resolve
    rfl

/-- Witness for C2 at the spec's example body. -/
theorem claimC2_witness :
    searchTime c2Body =
      some ("2024/3/1 10:00:00".toList, "2024/3/22 10:00:00".toList) ∧
    strptime "2024/3/1 10:00:00".toList = some ⟨2024, 3, 1, 10, 0, 0⟩ ∧
    strptime "2024/3/22 10:00:00".toList = some ⟨2024, 3, 22, 10, 0, 0⟩ ∧
    extractEventTime (fun _ => none) c2Body =
      some (⟨2024, 3, 1, 10, 0, 0⟩, ⟨2024, 3, 22, 10, 0, 0⟩) :=
  ⟨rfl, rfl, rfl,
   claimC2.1 (fun _ => none) c2Body "2024/3/1 10:00:00".toList
     "2024/3/22 10:00:00".toList ⟨2024, 3, 1, 10, 0, 0⟩ ⟨2024, 3, 22, 10, 0, 0⟩
     rfl rfl rfl⟩

/-- Body used for claim C3: the spec's version-relative example. -/
def c3Body : Str := "1.5版本更新后 ~ 2024/4/1 10:00:00".toList

/-- Resolver stub used for claim C3. -/
def c3Resolver : Str → Option DT :=
  fun v => if v = "1.5".toList then some ⟨2024, 3, 15, 12, 0, 0⟩ else none

/-- Claim C3: for a body matching only the version-relative pattern,
extraction returns `(t, parsed end)` exactly when the resolver returns
`t` for the captured label, and `none` when resolution fails (a raise
inside resolution is caught by the source and also surfaces as `none`).
-/
theorem claimC3 (resolve : Str → Option DT) (body g1 g2 : Str) (e : DT)
    (hst : searchTime body = none) (hsv : searchVersion body = some (g1, g2))
    (he : strptime g2 = some e) :
    (∀ t, resolve g1 = some t → extractEventTime resolve body = some (t, e)) ∧
    (resolve g1 = none → extractEventTime resolve body = none) := by
  constructor
  · intro t ht
    unfold extractEventTime
    rw [hst, hsv]
    unfold parseVersionTime
    simp [he, ht]
  · intro ht
    unfold extractEventTime
    rw [hst, hsv]
    unfold parseVersionTime
    simp [he, ht]

/-- Witness for C3 at the spec's example: the stub resolver yields
2024-03-15T12:00:00 as start; the always-failing resolver yields `none`.
-/
theorem claimC3_witness :
    extractEventTime c3Resolver c3Body =
      some (⟨2024, 3, 15, 12, 0, 0⟩, ⟨2024, 4, 1, 10, 0, 0⟩) ∧
    extractEventTime (fun _ => none) c3Body = none :=
  ⟨(claimC3 c3Resolver c3Body "1.5".toList "2024/4/1 10:00:00".toList
      ⟨2024, 4, 1, 10, 0, 0⟩ rfl rfl rfl).1 ⟨2024, 3, 15, 12, 0, 0⟩ rfl,
   (claimC3 (fun _ => none) c3Body "1.5".toList "2024/4/1 10:00:00".toList
      ⟨2024, 4, 1, 10, 0, 0⟩ rfl rfl rfl).2 rfl⟩

/-- Claim C4: the validation gate short-circuits before any extraction —
a body containing the engine keyword `音擎` yields `none` whatever else
it contains, and a body lacking the agent keyword `代理人` yields
`none`. -/
theorem claimC4 (resolve : Str → Option DT) (title body : Str) :
    (engineKw <:+: body → parsePostContent resolve title body = none) ∧
    (¬ agentKw <:+: body → parsePostContent resolve title body = none) := by
  constructor
  · intro h
    unfold parsePostContent
    by_cases hb : body = []
    · rw [if_pos hb]
    · rw [if_neg hb, if_pos (by simp [isValidPostContent_of_engine body h])]
  · intro h
    unfold parsePostContent
    by_cases hb : body = []
    · rw [if_pos hb]
    · rw [if_neg hb, if_pos (by simp [isValidPostContent_of_no_agent body h])]

/-- Engine-keyword body used for the C4 witness: it contains the agent
keyword and a perfectly extractable time window, yet is rejected. -/
def c4BodyEngine : Str :=
  "音擎 代理人 2024/3/1 10:00:00 ~ 2024/3/22 10:00:00".toList

/-- Agent-free body used for the C4 witness. -/
def c4BodyNoAgent : Str := "2024/3/1 10:00:00 ~ 2024/3/22 10:00:00".toList

/-- Witness for C4 on both gate conditions. -/
theorem claimC4_witness :
    (engineKw <:+: c4BodyEngine ∧
      parsePostContent (fun _ => none) ['t'] c4BodyEngine = none) ∧
    (¬ agentKw <:+: c4BodyNoAgent ∧
      parsePostContent (fun _ => none) ['t'] c4BodyNoAgent = none) :=
  ⟨⟨by decide, (claimC4 (fun _ => none) ['t'] c4BodyEngine).1 (by decide)⟩,
   ⟨by decide, (claimC4 (fun _ => none) ['t'] c4BodyNoAgent).2 (by decide)⟩⟩

/-- Claim C5: time extraction tries exactly the two encodings in order
— direct window first, version-relative second — committing to the
first matching pattern, and fails when neither matches. -/
theorem claimC5 (resolve : Str → Option DT) (body : Str) :
    (∀ g, searchTime body = some g →
      extractEventTime resolve body = parseDirectTime g) ∧
    (∀ g, searchTime body = none → searchVersion body = some g →
      extractEventTime resolve body = parseVersionTime resolve g) ∧
    (searchTime body = none → searchVersion body = none →
      extractEventTime resolve body = none) := by
  refine ⟨?_, ?_, ?_⟩
  · intro g h
    unfold extractEventTime
    rw [h]
  · intro g h1 h2
    unfold extractEventTime
    rw [h1, h2]
  · intro h1 h2
    unfold extractEventTime
    rw [h1, h2]

/-- Body containing both encodings (version-relative first in the text),
used for the C5 witness: the direct window must win. -/
def c5BodyBoth : Str :=
  "1.5版本更新后 ~ 2024/4/1 10:00:00，活动时间2024/3/1 10:00:00 ~ 2024/3/22 10:00:00".toList

/-- Version-only body used for the C5 witness. -/
def c5BodyVersion : Str := "2.0版本更新后 ~ 2024/5/1 10:00:00".toList

/-- Patternless body used for the C5 witness. -/
def c5BodyNeither : Str := "代理人活动即将开启".toList

/-- Witness for C5: a body with both patterns takes the direct result, a
version-only body takes the version result, a patternless body fails. -/
theorem claimC5_witness :
    (searchVersion c5BodyBoth = some ("1.5".toList, "2024/4/1 10:00:00".toList) ∧
      extractEventTime (fun _ => none) c5BodyBoth =
        some (⟨2024, 3, 1, 10, 0, 0⟩, ⟨2024, 3, 22, 10, 0, 0⟩)) ∧
    extractEventTime (fun _ => some ⟨2024, 4, 20, 6, 0, 0⟩) c5BodyVersion =
      some (⟨2024, 4, 20, 6, 0, 0⟩, ⟨2024, 5, 1, 10, 0, 0⟩) ∧
    extractEventTime (fun _ => none) c5BodyNeither = none :=
  ⟨⟨rfl,
    ((claimC5 (fun _ => none) c5BodyBoth).1
      ("2024/3/1 10:00:00".toList, "2024/3/22 10:00:00".toList) rfl).trans rfl⟩,
   ((claimC5 (fun _ => some ⟨2024, 4, 20, 6, 0, 0⟩) c5BodyVersion).2.1
      ("2.0".toList, "2024/5/1 10:00:00".toList) rfl rfl).trans rfl,
   (claimC5 (fun _ => none) c5BodyNeither).2.2 rfl rfl⟩

/-- Claim C6: title derivation — when the body contains bracket pairs,
the derived title is the `name(qualifier)` renderings deduplicated in
first-seen order and joined with `、`, and it overrides the post's
title in the emitted event; with no bracket pair the original title is
kept; the pattern `[A(B)][C(D)][A(B)]` derives `A(B)、C(D)`. -/
theorem claimC6 (resolve : Str → Option DT) (title body : Str) (s e : DT) :
    (findAgents body ≠ [] → extractAgentsTitle body =
      some (joinSep '、' (dedupFirst
        ((findAgents body).map fun m => m.1 ++ '(' :: m.2 ++ [')'])))) ∧
    (findAgents body = [] → extractAgentsTitle body = none) ∧
    (∀ tD, isValidPostContent body = true →
      extractEventTime resolve body = some (s, e) →
      extractAgentsTitle body = some tD →
      parsePostContent resolve title body = some ⟨tD, s, e, []⟩) ∧
    (isValidPostContent body = true →
      extractEventTime resolve body = some (s, e) →
      extractAgentsTitle body = none →
      parsePostContent resolve title body = some ⟨title, s, e, []⟩) ∧
    extractAgentsTitle "[A(B)][C(D)][A(B)]".toList = some "A(B)、C(D)".toList := by
  refine ⟨?_, ?_, ?_, ?_, by rfl⟩
  · intro h
    unfold extractAgentsTitle
    rw [if_neg h]
  · intro h
    unfold extractAgentsTitle
    rw [if_pos h]
  · intro tD hv hx htD
    rw [parsePostContent_some resolve title body s e hv hx, htD]
    rfl
  · intro hv hx htD
    rw [parsePostContent_some resolve title body s e hv hx, htD]
    rfl

/-- Body used for the C6 witness: bracket pairs, the agent keyword, and
a direct window. -/
def c6Body : Str :=
  "代理人 [A(B)][C(D)][A(B)] 2024/3/1 10:00:00 ~ 2024/3/22 10:00:00".toList

/-- Bracket-free body used for the C6 witness. -/
def c6BodyPlain : Str := "代理人 2024/3/1 10:00:00 ~ 2024/3/22 10:00:00".toList

/-- Witness for C6: derived title override on the bracketed body and
original-title retention on the plain one. -/
theorem claimC6_witness :
    parsePostContent (fun _ => none) ['t'] c6Body =
      some ⟨"A(B)、C(D)".toList, ⟨2024, 3, 1, 10, 0, 0⟩, ⟨2024, 3, 22, 10, 0, 0⟩, []⟩ ∧
    parsePostContent (fun _ => none) ['t'] c6BodyPlain =
      some ⟨['t'], ⟨2024, 3, 1, 10, 0, 0⟩, ⟨2024, 3, 22, 10, 0, 0⟩, []⟩ ∧
    extractAgentsTitle "[A(B)][C(D)][A(B)]".toList = some "A(B)、C(D)".toList :=
  ⟨(claimC6 (fun _ => none) ['t'] c6Body ⟨2024, 3, 1, 10, 0, 0⟩
      ⟨2024, 3, 22, 10, 0, 0⟩).2.2.1 "A(B)、C(D)".toList (by decide) (by rfl) (by rfl),
   (claimC6 (fun _ => none) ['t'] c6BodyPlain ⟨2024, 3, 1, 10, 0, 0⟩
      ⟨2024, 3, 22, 10, 0, 0⟩).2.2.2.1 (by decide) (by rfl) (by rfl),
   (claimC6 (fun _ => none) ['t'] c6BodyPlain ⟨2024, 3, 1, 10, 0, 0⟩
      ⟨2024, 3, 22, 10, 0, 0⟩).2.2.2.2⟩

/-- Claim C7: `merge_events` keys by the exact isoformat pair; two
events with the same key merge into a single entry whose title is the
deduplicated join of both titles and whose other fields are the first
event's; equal titles with distinct segments collapse without
duplication (`A` + `A` gives `A`, while distinct titles concatenate as
`A、B`). -/
theorem claimC7 (e1 e2 : CandidateEvent) (hk : mkKey e2 = mkKey e1) :
    mergeEvents [e1, e2] =
      [(mkKey e1, { e1 with title := mergeTitles e1.title e2.title })] ∧
    (e2.title = e1.title → (splitSep '、' e1.title).Nodup →
      mergeTitles e1.title e2.title = e1.title) := by
  constructor
  · show mergeStep (mergeStep [] e1) e2 = _
    have h1 : mergeStep [] e1 = [(mkKey e1, e1)] := rfl
    rw [h1]
    unfold mergeStep
    have h2 : lookupA [(mkKey e1, e1)] (mkKey e2) = some e1 := by
      rw [hk]
      simp [lookupA]
    rw [h2]
    simp only [List.map_cons, List.map_nil, hk, if_pos rfl]
    rfl
  · intro ht hn
    rw [ht]
    unfold mergeTitles
    rw [dedupFirst_append_self, dedupFirst_of_nodup _ hn, joinSep_splitSep]

/-- Events used for the C7 witness. -/
def c7evA : CandidateEvent :=
  ⟨['A'], ⟨2024, 3, 1, 10, 0, 0⟩, ⟨2024, 3, 22, 10, 0, 0⟩, []⟩

/-- Same window as `c7evA`, different title and description. -/
def c7evB : CandidateEvent :=
  ⟨['B'], ⟨2024, 3, 1, 10, 0, 0⟩, ⟨2024, 3, 22, 10, 0, 0⟩, ['d']⟩

/-- Same window and title as `c7evA`, different description. -/
def c7evA2 : CandidateEvent :=
  ⟨['A'], ⟨2024, 3, 1, 10, 0, 0⟩, ⟨2024, 3, 22, 10, 0, 0⟩, ['d']⟩

/-- Witness for C7: `A`+`B` merges to a single entry titled `A、B`
keeping the first event's fields; `A`+`A` merges to title `A`. -/
theorem claimC7_witness :
    mergeEvents [c7evA, c7evB] =
      [(mkKey c7evA, { c7evA with title := mergeTitles c7evA.title c7evB.title })] ∧
    mergeTitles c7evA.title c7evB.title = ['A', '、', 'B'] ∧
    mergeEvents [c7evA, c7evA2] =
      [(mkKey c7evA, { c7evA with title := mergeTitles c7evA.title c7evA2.title })] ∧
    mergeTitles c7evA.title c7evA2.title = c7evA.title :=
  ⟨(claimC7 c7evA c7evB rfl).1, rfl,
   (claimC7 c7evA c7evA2 rfl).1,
   (claimC7 c7evA c7evA2 rfl).2 rfl (by decide)⟩

/-- Claim C8: `merge_events` is order-stable — permuting the input
leaves the key set unchanged and, for every key, leaves the set of
`、`-separated title segments unchanged (only their order within the
joined title may differ). -/
theorem claimC8 (l l' : List CandidateEvent) (hp : l.Perm l') (q : Str × Str) :
    (lookupA (mergeEvents l) q ≠ none ↔ lookupA (mergeEvents l') q ≠ none) ∧
    (∀ s, segMem (mergeEvents l) q s ↔ segMem (mergeEvents l') q s) := by
  constructor
  · unfold mergeEvents
    rw [lookupA_foldl_ne_none l [] q, lookupA_foldl_ne_none l' [] q]
    simp only [lookupA, ne_eq, not_true_eq_false, false_or]
    constructor
    · rintro ⟨e, he, hk⟩
      exact ⟨e, hp.mem_iff.mp he, hk⟩
    · rintro ⟨e, he, hk⟩
      exact ⟨e, hp.mem_iff.mpr he, hk⟩
  · intro s
    unfold mergeEvents
    rw [segMem_foldl l [] q s, segMem_foldl l' [] q s]
    have hbase : ¬ segMem [] q s := by
      rintro ⟨ev, hev, -⟩
      exact Option.noConfusion hev
    simp only [hbase, false_or]
    constructor
    · rintro ⟨e, he, hk, hs⟩
      exact ⟨e, hp.mem_iff.mp he, hk, hs⟩
    · rintro ⟨e, he, hk, hs⟩
      exact ⟨e, hp.mem_iff.mpr he, hk, hs⟩

/-- Events used for the C8 witness (identical window, different
titles). -/
def c8ev1 : CandidateEvent :=
  ⟨['A'], ⟨2024, 4, 1, 10, 0, 0⟩, ⟨2024, 4, 11, 10, 0, 0⟩, []⟩

/-- Second event for the C8 witness. -/
def c8ev2 : CandidateEvent :=
  ⟨['B'], ⟨2024, 4, 1, 10, 0, 0⟩, ⟨2024, 4, 11, 10, 0, 0⟩, []⟩

/-- Witness for C8 on a two-element input and its transposition. -/
theorem claimC8_witness :
    (lookupA (mergeEvents [c8ev1, c8ev2]) (mkKey c8ev1) ≠ none ↔
      lookupA (mergeEvents [c8ev2, c8ev1]) (mkKey c8ev1) ≠ none) ∧
    (segMem (mergeEvents [c8ev1, c8ev2]) (mkKey c8ev1) ['A'] ↔
      segMem (mergeEvents [c8ev2, c8ev1]) (mkKey c8ev1) ['A']) :=
  ⟨(claimC8 [c8ev1, c8ev2] [c8ev2, c8ev1] (List.Perm.swap c8ev2 c8ev1 [])
      (mkKey c8ev1)).1,
   (claimC8 [c8ev1, c8ev2] [c8ev2, c8ev1] (List.Perm.swap c8ev2 c8ev1 [])
      (mkKey c8ev1)).2 ['A']⟩

/-- `toSeconds` of any constructor-valid datetime is at least one day
(the ordinal of 0001-01-01 is 1). -/
theorem toSeconds_lb (d : DT) (h : isValidDT d) : (86400 : Int) ≤ toSeconds d := by
  have := toOrdinal_pos d h
  unfold toSeconds secOf
  omega

theorem notFirstHour_of_lb (d : DT) (h : isValidDT d)
    (hs : 2 * 86400 ≤ toSeconds d) : notFirstHour d := by
  by_contra hn
  unfold notFirstHour at hn
  push_neg at hn
  obtain ⟨hh, hd, hm, hy⟩ := hn
  obtain ⟨hy1, -, hm1, -, hd1, -, -, hmin, hsec⟩ := h
  have hy' : d.year = 1 := by omega
  have hm' : d.month = 1 := by omega
  have hd' : d.day = 1 := by omega
  have hh' : d.hour = 0 := by omega
  unfold toSeconds secOf toOrdinal at hs
  rw [hy', hm', hd', hh'] at hs
  have h1 : daysBeforeYear 1 = 0 := rfl
  have h2 : daysBeforeMonth 1 1 = 0 := rfl
  rw [h1, h2] at hs
  omega

/-- Claim C9: `add_event` splits an event strictly longer than 24 hours
into exactly two entries — `<title> 开始` spanning one hour from the
start and `<title> 结束` spanning the hour ending at the end — and
emits an event of at most 24 hours as exactly one unchanged entry. -/
theorem claimC9 (e : CandidateEvent) (hs : isValidDT e.startTime)
    (he : isValidDT e.endTime) :
    (24 * 3600 < toSeconds e.endTime - toSeconds e.startTime →
      addEvent e =
        [⟨e.title ++ ' ' :: "开始".toList, e.startTime, addHour e.startTime, e.description⟩,
         ⟨e.title ++ ' ' :: "结束".toList, subHour e.endTime, e.endTime, e.description⟩] ∧
      toSeconds (addHour e.startTime) - toSeconds e.startTime = 3600 ∧
      toSeconds e.endTime - toSeconds (subHour e.endTime) = 3600) ∧
    (toSeconds e.endTime - toSeconds e.startTime ≤ 24 * 3600 →
      addEvent e = [⟨e.title, e.startTime, e.endTime, e.description⟩]) := by
  constructor
  · intro hdur
    refine ⟨?_, ?_, ?_⟩
    · unfold addEvent
      rw [if_pos hdur]
    · rw [toSeconds_addHour _ hs]
      ring
    · have hnf : notFirstHour e.endTime := by
        refine notFirstHour_of_lb _ he ?_
        have := toSeconds_lb _ hs
        omega
      rw [toSeconds_subHour _ he hnf]
      ring
  · intro hdur
    unfold addEvent
    rw [if_neg (by omega)]

/-- A 30-hour event for the C9 witness. -/
def c9ev30 : CandidateEvent :=
  ⟨['A'], ⟨2024, 3, 1, 10, 0, 0⟩, ⟨2024, 3, 2, 16, 0, 0⟩, []⟩

/-- A 10-hour event for the C9 witness. -/
def c9ev10 : CandidateEvent :=
  ⟨['A'], ⟨2024, 3, 1, 10, 0, 0⟩, ⟨2024, 3, 1, 20, 0, 0⟩, []⟩

/-- Witness for C9 at 30-hour and 10-hour events. -/
theorem claimC9_witness :
    (addEvent c9ev30 =
      [⟨c9ev30.title ++ ' ' :: "开始".toList, c9ev30.startTime,
          addHour c9ev30.startTime, c9ev30.description⟩,
       ⟨c9ev30.title ++ ' ' :: "结束".toList, subHour c9ev30.endTime,
          c9ev30.endTime, c9ev30.description⟩] ∧
      toSeconds (addHour c9ev30.startTime) - toSeconds c9ev30.startTime = 3600 ∧
      toSeconds c9ev30.endTime - toSeconds (subHour c9ev30.endTime) = 3600) ∧
    addEvent c9ev10 = [⟨c9ev10.title, c9ev10.startTime, c9ev10.endTime, c9ev10.description⟩] :=
  ⟨(claimC9 c9ev30 (by decide) (by decide)).1 (by decide),
   (claimC9 c9ev10 (by decide) (by decide)).2 (by decide)⟩

/-- Claim C10: a version already cached short-circuits — the result is
`fromisoformat` of the cached string, independent of the fetch function
(so the external lookup is never consulted, including when the cached
string fails to parse, in which case the result is `none` with no
fallback); resolving an uncached version twice in sequence fetches and
persists once, then serves the identical timestamp from the cache with
no second persist. -/
theorem claimC10 :
    (∀ (fetch fetchB : Str → Option DT) (cache : List (Str × Str)) (version : Str) (t : DT),
      lookupA cache version = none → fetch version = some t → isValidDT t →
      getVersionStartTime fetch cache version =
        (some t, cache ++ [(version, isoformat t)], true) ∧
      getVersionStartTime fetchB (cache ++ [(version, isoformat t)]) version =
        (some t, cache ++ [(version, isoformat t)], false)) ∧
    (∀ (fetch : Str → Option DT) (cache : List (Str × Str)) (version v : Str),
      lookupA cache version = some v →
      getVersionStartTime fetch cache version = (fromisoformat v, cache, false)) := by
  constructor
  · intro fetch fetchB cache version t hmiss hfetch hvalid
    have hsave : saveVersionData version t cache = cache ++ [(version, isoformat t)] := by
      unfold saveVersionData
      rw [hmiss]
      simp
    constructor
    · unfold getVersionStartTime
      rw [hmiss, hfetch]
      show (some t, saveVersionData version t cache, true) = _
      rw [hsave]
    · unfold getVersionStartTime
      have hl : lookupA (cache ++ [(version, isoformat t)]) version = some (isoformat t) := by
        rw [lookupA_append_single, hmiss, if_pos rfl]
      rw [hl]
      show (fromisoformat (isoformat t), cache ++ [(version, isoformat t)], false) = _
      rw [fromisoformat_isoformat t hvalid]
  · intro fetch cache version v hhit
    unfold getVersionStartTime
    rw [hhit]

/-- Timestamp used in the C10 witness. -/
def c10t : DT := ⟨2024, 3, 15, 12, 0, 0⟩

/-- Version label used in the C10 witness. -/
def c10v : Str := "1.5".toList

/-- A cache whose entry for `1.5` is not a parseable ISO timestamp. -/
def c10badCache : List (Str × Str) := [("1.5".toList, "garbage".toList)]

/-- Witness for C10: fetch-then-persist on an empty cache, cache hit
with a different (never consulted) fetch on the second call, and the
unparseable-cache-value edge returning `none` without fallback. -/
theorem claimC10_witness :
    getVersionStartTime (fun _ => some c10t) [] c10v =
      (some c10t, [] ++ [(c10v, isoformat c10t)], true) ∧
    getVersionStartTime (fun _ => none) ([] ++ [(c10v, isoformat c10t)]) c10v =
      (some c10t, [] ++ [(c10v, isoformat c10t)], false) ∧
    getVersionStartTime (fun _ => some c10t) c10badCache c10v =
      (none, c10badCache, false) :=
  ⟨(claimC10.1 (fun _ => some c10t) (fun _ => none) [] c10v c10t rfl rfl (by decide)).1,
   (claimC10.1 (fun _ => some c10t) (fun _ => none) [] c10v c10t rfl rfl (by decide)).2,
   (claimC10.2 (fun _ => some c10t) c10badCache c10v "garbage".toList rfl).trans rfl⟩

end MihoyoIcs
